import Mathlib

/-!
Verification of the Kelp UI custom-download bundle
(`src/assets/js/kelp-tecnologiahumanista.0.10.js`).

The file contains three browser components; the only nontrivial logic is the
table-of-contents builder (`kelp-toc`'s private `#createList`), a recursive
walk over a flat, document-ordered list of headings that shares one cursor
index across all recursive calls.  We embed that walk, the caption/list
wrapper that surrounds it, the `setTextAsID` identifier assigner, and the
lifecycle guards of `init`/`reinit`, and prove the documented properties.

Headings are modelled by their integer rank (`h2` ↦ 2, …), since the builder
inspects nothing else of a heading when shaping the list: `tagName.slice(1)`
comparisons drive both the recursion and the early `break`.  A produced
`<li>` is modelled by `Item`: its heading's position in the flat sequence,
plus the nested list produced by the recursive call, when one was made.
-/

/-- A rendered list item of the TOC: `leaf i` is
`<li><a href=#id_i>…</a></li>`, and `node i cs` is the same `<li>` with the
markup of a recursive `#createList` call (a nested list `cs`) appended
inside it, exactly as the template literal on lines 357-361 does. -/
inductive Item where
  | leaf (idx : Nat)
  | node (idx : Nat) (children : List Item)
deriving Repr

/-- Position of the item's heading in the flat heading sequence. -/
def Item.idx : Item → Nat
  | .leaf i => i
  | .node i _ => i

/-- True when the item embeds no nested list (no recursive call was made
for it). -/
def Item.isLeaf : Item → Bool
  | .leaf _ => true
  | .node _ _ => false

/-- The loop of `#createList` (lines 344-366), fuelled.  `hs` is the list of
heading ranks, `isFirst` the `isFirst` argument, and `i` the value of the
shared cursor `this.#index` when the loop is entered.  It returns the items
the loop appended to `list` together with the final value of the shared
cursor.  Each loop step reads the current rank `r = hs[i]` and the rank of
the following heading (falling back to `r` when there is none, mirroring
`headings[this.#index + 1]?.tagName.slice(1) || currentLevel`); when nesting
is on and the next rank is strictly deeper it recurses, which in the source
is `this.#createList(headings)`: the callee starts by bumping the shared
cursor, so the recursive loop starts at `i + 1`.  After the item is emitted
the loop breaks early when this is not the top-level call and the rank
following the (possibly advanced) cursor is strictly shallower than `r`;
otherwise the `for` update advances the cursor and the loop continues,
modelled by the tail call at `c.2 + 1` (resp. `i + 1`). -/
def buildF (hs : List Nat) (nested : Bool) : Nat → Bool → Nat → List Item × Nat
  | 0, _, i => ([], i)
  | fuel + 1, isFirst, i =>
    if i < hs.length then
      let r := (hs[i]?).getD 0
      let nextR := (hs[i + 1]?).getD r
      if nested && decide (r < nextR) then
        let c := buildF hs nested fuel false (i + 1)
        let nextR2 := (hs[c.2 + 1]?).getD r
        if !isFirst && decide (nextR2 < r) then
          ([Item.node i c.1], c.2)
        else
          let rest := buildF hs nested fuel isFirst (c.2 + 1)
          (Item.node i c.1 :: rest.1, rest.2)
      else
        if !isFirst && decide (nextR < r) then
          ([Item.leaf i], i)
        else
          let rest := buildF hs nested fuel isFirst (i + 1)
          (Item.leaf i :: rest.1, rest.2)
    else ([], i)

/-- The top-level `#createList(headings, true)` call made by `render`
(line 324), with the fuel that the termination theorem shows suffices:
item list together with the final shared cursor. -/
def createListRun (nested : Bool) (hs : List Nat) : List Item × Nat :=
  buildF hs nested hs.length true 0

/-- The item list produced by the top-level `#createList` call. -/
def createList (nested : Bool) (hs : List Nat) : List Item :=
  (createListRun nested hs).1

mutual
/-- Flatten one item to `(heading position, nesting depth)` pairs, in
document order, where the item itself sits at depth `d`. -/
def annotItem (d : Nat) : Item → List (Nat × Nat)
  | .leaf i => [(i, d)]
  | .node i cs => (i, d) :: annotList (d + 1) cs

/-- Flatten an item list to `(heading position, nesting depth)` pairs. -/
def annotList (d : Nat) : List Item → List (Nat × Nat)
  | [] => []
  | it :: rest => annotItem d it ++ annotList d rest
end

/-- The heading positions referenced by a produced list, in document order. -/
def tocIndexes (items : List Item) : List Nat :=
  (annotList 1 items).map Prod.fst

mutual
/-- Nesting depth of a single item (1 when it has no nested list). -/
def depthItem : Item → Nat
  | .leaf _ => 1
  | .node _ cs => depthList cs + 1

/-- Nesting depth of an item list: 0 when empty, else the deepest item. -/
def depthList : List Item → Nat
  | [] => 0
  | it :: rest => max (depthItem it) (depthList rest)
end

mutual
/-- Every item of a tree, the nested ones included. -/
def allItemsI : Item → List Item
  | .leaf i => [Item.leaf i]
  | .node i cs => Item.node i cs :: allItemsL cs

/-- Every item of an item list, the nested ones included. -/
def allItemsL : List Item → List Item
  | [] => []
  | it :: rest => allItemsI it ++ allItemsL rest
end

/-- Modelled from the spec (§4.2 step 3 and §3's invariant): the stack of
currently open list levels, innermost first, each entry the rank of the
item the corresponding recursive frame is currently at.  When a new rank
`r` is not strictly deeper than the innermost open rank, control returns to
the nearest enclosing frame that need not stop: a frame stops consuming
when `r` is strictly shallower than its current rank, except the top-level
frame, which never stops.  The stopping frame's current rank is then
replaced by `r`. -/
def popTo : List Nat → Nat → List Nat
  | [], r => [r]
  | t :: rest, r => if r < t ∧ rest ≠ [] then popTo rest r else r :: rest

/-- Modelled from the spec (§4.2 step 3): one heading of rank `r` arrives.
With an empty stack it opens the top level; when `r` is strictly deeper
than the innermost open rank a nested level is opened (the recursion);
otherwise open levels are closed per `popTo`. -/
def stepStack : List Nat → Nat → List Nat
  | [], r => [r]
  | t :: rest, r => if t < r then r :: t :: rest else popTo (t :: rest) r

/-- Modelled from the spec: running the stack over a rank sequence, the
depth assigned to each heading is the number of open levels just after it
is placed. -/
def specDepthsGo (S : List Nat) : List Nat → List Nat
  | [] => []
  | r :: rs => (stepStack S r).length :: specDepthsGo (stepStack S r) rs

/-- Modelled from the spec (§3's invariant): the nesting depth every
heading of the sequence gets, as fixed by the run of strictly deeper ranks
back to the nearest open ancestor rank. -/
def specDepths (rs : List Nat) : List Nat :=
  specDepthsGo [] rs

/-- Prepending the start point to a one-step-later interval. -/
theorem range'_cons_sub (i m : Nat) (h : i < m) :
    i :: List.range' (i + 1) (m - (i + 1)) = List.range' i (m - i) := by
  have h2 : m - i = (m - (i + 1)) + 1 := by omega
  rw [h2, List.range'_succ]

/-- Gluing two adjacent index intervals. -/
theorem range'_glue (i a b : Nat) (h1 : i ≤ a) (h2 : a ≤ b) :
    List.range' i (a - i) ++ List.range' a (b - a) = List.range' i (b - i) := by
  have h3 := List.range'_append i (a - i) (b - a) 1
  simp only [one_mul] at h3
  rw [show i + (a - i) = a by omega] at h3
  rw [h3, show b - a + (a - i) = b - i by omega]

/-- Gluing the interval covered by an item and its nested list with the
interval covered by the remainder of its enclosing loop. -/
theorem cover_glue (i c2 r2 len : Nat) (h1 : i < len) (h2 : i + 1 ≤ c2) (h3 : c2 + 1 ≤ r2) :
    (i :: List.range' (i + 1) (min (c2 + 1) len - (i + 1)))
        ++ List.range' (c2 + 1) (min (r2 + 1) len - (c2 + 1))
      = List.range' i (min (r2 + 1) len - i) := by
  rcases le_or_lt (c2 + 1) len with hc | hc
  · rw [range'_cons_sub (i := i) (m := min (c2 + 1) len) (by omega)]
    rw [show min (c2 + 1) len = c2 + 1 by omega]
    rw [show List.range' (c2 + 1) (min (r2 + 1) len - (c2 + 1))
        = List.range' (c2 + 1) (min (r2 + 1) len - (c2 + 1)) from rfl]
    exact range'_glue i (c2 + 1) (min (r2 + 1) len) (by omega) (by omega)
  · rw [show min (c2 + 1) len = len by omega, show min (r2 + 1) len = len by omega,
      show len - (c2 + 1) = 0 by omega]
    simp only [List.range'_zero, List.append_nil]
    exact range'_cons_sub i len h1

/-- The shared cursor never decreases across a loop run. -/
theorem buildF_mono (hs : List Nat) (nested : Bool) :
    ∀ fuel first i, i ≤ (buildF hs nested fuel first i).2 := by
  intro fuel
  induction fuel with
  | zero => intro first i; simp [buildF]
  | succ fuel ih =>
    intro first i
    simp only [buildF]
    split
    · split
      · split
        · exact le_trans (Nat.le_succ i) (ih false (i + 1))
        · exact le_trans (by have := ih false (i + 1); omega)
            (ih first ((buildF hs nested fuel false (i + 1)).2 + 1))
      · split
        · exact le_refl i
        · exact le_trans (Nat.le_succ i) (ih first (i + 1))
    · exact le_refl i

/-- With enough fuel the run does not depend on the fuel: the recursion of
`#createList` is a total function of the heading sequence, the
configuration and the starting cursor. -/
theorem buildF_fuel_eq (hs : List Nat) (nested : Bool) :
    ∀ f1 f2 first i, hs.length - i ≤ f1 → hs.length - i ≤ f2 →
      buildF hs nested f1 first i = buildF hs nested f2 first i := by
  intro f1
  induction f1 with
  | zero =>
    intro f2 first i h1 _
    have hi : ¬ i < hs.length := by omega
    cases f2 <;> simp [buildF, hi]
  | succ f1 ih =>
    intro f2 first i h1 h2
    by_cases hi : i < hs.length
    · cases f2 with
      | zero => omega
      | succ g =>
        have hc : buildF hs nested f1 false (i + 1) = buildF hs nested g false (i + 1) :=
          ih g false (i + 1) (by omega) (by omega)
        have hm : i + 1 ≤ (buildF hs nested g false (i + 1)).2 :=
          buildF_mono hs nested g false (i + 1)
        simp only [buildF, hi, if_true, hc]
        rw [ih g first ((buildF hs nested g false (i + 1)).2 + 1) (by omega) (by omega),
          ih g first (i + 1) (by omega) (by omega)]
    · cases f2 <;> simp [buildF, hi]

/-- Coverage: a loop run started at cursor `i` emits exactly the headings
of a contiguous interval starting at `i`, each exactly once and in
document order; the interval ends one past the final cursor (clipped to
the sequence length). -/
theorem buildF_cover (hs : List Nat) (nested : Bool) :
    ∀ fuel first i d, hs.length - i ≤ fuel →
      (annotList d (buildF hs nested fuel first i).1).map Prod.fst
        = List.range' i (min ((buildF hs nested fuel first i).2 + 1) hs.length - i) := by
  intro fuel
  induction fuel with
  | zero =>
    intro first i d h
    have hi : hs.length ≤ i := by omega
    simp only [buildF, annotList, List.map_nil]
    rw [show min (i + 1) hs.length - i = 0 by omega]
    simp
  | succ fuel ih =>
    intro first i d h
    by_cases hi : i < hs.length
    · simp only [buildF, if_pos hi]
      split
      · have hm := buildF_mono hs nested fuel false (i + 1)
        have hchild := ih false (i + 1) (d + 1) (by omega)
        split
        · simp only [annotList, annotItem, List.append_nil, List.map_cons]
          rw [hchild]
          exact range'_cons_sub i (min ((buildF hs nested fuel false (i + 1)).2 + 1) hs.length)
            (by omega)
        · have hm2 := buildF_mono hs nested fuel first
            ((buildF hs nested fuel false (i + 1)).2 + 1)
          have hrest := ih first ((buildF hs nested fuel false (i + 1)).2 + 1) d (by omega)
          simp only [annotList, annotItem, List.map_append, List.map_cons]
          rw [hchild, hrest]
          exact cover_glue i (buildF hs nested fuel false (i + 1)).2
            (buildF hs nested fuel first ((buildF hs nested fuel false (i + 1)).2 + 1)).2
            hs.length hi (by omega) (by omega)
      · split
        · simp only [annotList, annotItem, List.append_nil, List.map_cons, List.map_nil]
          rw [show min (i + 1) hs.length - i = 1 by omega]
          simp [List.range'_one]
        · have hm2 := buildF_mono hs nested fuel first (i + 1)
          have hrest := ih first (i + 1) d (by omega)
          simp only [annotList, annotItem, List.map_append, List.map_cons, List.map_nil,
            List.singleton_append]
          rw [hrest]
          exact range'_cons_sub i
            (min ((buildF hs nested fuel first (i + 1)).2 + 1) hs.length) (by omega)
    · simp only [buildF, if_neg hi, annotList, List.map_nil]
      rw [show min (i + 1) hs.length - i = 0 by omega]
      simp

/-- The top-level loop never breaks early: it consumes the sequence to its
end (the `break` on line 364 is guarded by `!isFirst`). -/
theorem buildF_first_exit (hs : List Nat) (nested : Bool) :
    ∀ fuel i, hs.length - i ≤ fuel → hs.length ≤ (buildF hs nested fuel true i).2 := by
  intro fuel
  induction fuel with
  | zero => intro i h; simp only [buildF]; omega
  | succ fuel ih =>
    intro i h
    by_cases hi : i < hs.length
    · simp only [buildF, if_pos hi]
      split
      · have hm := buildF_mono hs nested fuel false (i + 1)
        split
        · next hbr => simp at hbr
        · exact ih _ (by omega)
      · split
        · next hbr => simp at hbr
        · exact ih _ (by omega)
    · simp only [buildF, if_neg hi]; omega

/-- With nesting disabled the recursion guard on line 360 is never taken:
every produced item is a leaf. -/
theorem buildF_flat_leaf (hs : List Nat) :
    ∀ fuel first i, ((buildF hs false fuel first i).1).all Item.isLeaf = true := by
  intro fuel
  induction fuel with
  | zero => intro first i; simp [buildF]
  | succ fuel ih =>
    intro first i
    by_cases hi : i < hs.length
    · simp only [buildF, if_pos hi, Bool.false_and, Bool.false_eq_true, if_false]
      split
      · simp [Item.isLeaf]
      · simp [Item.isLeaf, ih first (i + 1)]
    · simp [buildF, hi]

/-- A loop run entered with a heading left to consume emits at least one
item. -/
theorem buildF_ne_nil (hs : List Nat) (nested : Bool) :
    ∀ fuel first i, i < hs.length → 0 < fuel → (buildF hs nested fuel first i).1 ≠ [] := by
  intro fuel first i hi hf
  cases fuel with
  | zero => omega
  | succ fuel =>
    simp only [buildF, if_pos hi]
    split
    · split <;> simp
    · split <;> simp

/-- An item that embeds a nested list is never built for the last heading:
the recursion guard needs a following heading of strictly deeper rank. -/
theorem buildF_node_idx (hs : List Nat) (nested : Bool) :
    ∀ fuel first i it, it ∈ allItemsL (buildF hs nested fuel first i).1 →
      it.isLeaf = true ∨ it.idx + 1 < hs.length := by
  intro fuel
  induction fuel with
  | zero => intro first i it hmem; simp [buildF, allItemsL] at hmem
  | succ fuel ih =>
    intro first i it hmem
    by_cases hi : i < hs.length
    · simp only [buildF, if_pos hi] at hmem
      revert hmem
      split
      · next hguard =>
        have hnext : i + 1 < hs.length := by
          by_contra hc
          have hnone : hs[i + 1]? = none := by
            rw [List.getElem?_eq_none_iff]
            omega
          rw [hnone] at hguard
          simp at hguard
        split
        · intro hmem
          simp only [allItemsL, allItemsI, List.append_nil, List.mem_cons] at hmem
          rcases hmem with h1 | h1
          · right; rw [h1]; exact hnext
          · exact ih false (i + 1) it h1
        · intro hmem
          simp only [allItemsL, allItemsI, List.mem_append, List.mem_cons] at hmem
          rcases hmem with (h1 | h1) | h1
          · right; rw [h1]; exact hnext
          · exact ih false (i + 1) it h1
          · exact ih first _ it h1
      · split
        · intro hmem
          simp only [allItemsL, allItemsI, List.append_nil, List.mem_singleton] at hmem
          left; rw [hmem]; rfl
        · intro hmem
          simp only [allItemsL, allItemsI, List.mem_append, List.mem_singleton] at hmem
          rcases hmem with h1 | h1
          · left; rw [h1]; rfl
          · exact ih first _ it h1
    · simp [buildF, hi, allItemsL] at hmem

/-- Dropping past a clipped bound is dropping past the bound. -/
theorem drop_min_eq (hs : List Nat) (a : Nat) :
    hs.drop (min a hs.length) = hs.drop a := by
  rcases le_or_lt a hs.length with h | h
  · rw [min_eq_left h]
  · rw [min_eq_right (by omega), List.drop_eq_nil_of_le (le_refl _),
      List.drop_eq_nil_of_le (by omega)]

/-- Simulation: a loop run of the nested builder places headings at exactly
the depths the specification's open-level stack assigns.  `S` is the stack
of open levels enclosing this run (innermost first; empty exactly for the
top-level call), and `F` the specification stack in force when the run's
first heading is reached; the run's item depths continue the
specification's depth sequence, and on an early break the stack it leaves
behind closes levels exactly as the enclosing frames will. -/
theorem buildF_sim (hs : List Nat) :
    ∀ fuel F S first i,
      first = S.isEmpty →
      hs.length - i ≤ fuel →
      (i < hs.length → stepStack F ((hs[i]?).getD 0) = (hs[i]?).getD 0 :: S) →
      ∃ F',
        ((annotList (S.length + 1) (buildF hs true fuel first i).1).map Prod.snd)
            ++ specDepthsGo F' (hs.drop (min ((buildF hs true fuel first i).2 + 1) hs.length))
          = specDepthsGo F (hs.drop i)
        ∧ ((buildF hs true fuel first i).2 < hs.length →
            stepStack F' ((hs[(buildF hs true fuel first i).2 + 1]?).getD 0)
              = popTo S ((hs[(buildF hs true fuel first i).2 + 1]?).getD 0)) := by
  intro fuel
  induction fuel with
  | zero =>
    intro F S first i h1 h2 h3
    have hi : hs.length ≤ i := by omega
    refine ⟨F, ?_, ?_⟩
    · simp only [buildF, annotList, List.map_nil, List.nil_append]
      rw [show min (i + 1) hs.length = hs.length by omega,
        List.drop_eq_nil_of_le (le_refl _), List.drop_eq_nil_of_le hi]
    · simp only [buildF]; omega
  | succ fuel ih =>
    intro F S first i h1 h2 h3
    by_cases hi : i < hs.length
    · have hival : hs[i]? = some hs[i] := List.getElem?_eq_getElem hi
      have hstF : stepStack F hs[i] = hs[i] :: S := by
        have h4 := h3 hi
        rwa [hival, Option.getD_some] at h4
      have hfold : specDepthsGo F (hs.drop i)
          = (S.length + 1) :: specDepthsGo (hs[i] :: S) (hs.drop (i + 1)) := by
        rw [List.drop_eq_getElem_cons hi]
        simp only [specDepthsGo, hstF, List.length_cons]
      simp only [buildF, if_pos hi, hival, Option.getD_some, Bool.true_and,
        Bool.and_eq_true, Bool.not_eq_true', decide_eq_true_eq]
      split
      · next hguard =>
        have hnext : i + 1 < hs.length := by
          by_contra hc
          rw [List.getElem?_eq_none_iff.2 (by omega), Option.getD_none] at hguard
          omega
        have hnval : hs[i + 1]? = some hs[i + 1] := List.getElem?_eq_getElem hnext
        rw [hnval, Option.getD_some] at hguard
        obtain ⟨Fc, hc1, hc2⟩ := ih (hs[i] :: S) (hs[i] :: S) false (i + 1)
          (by simp) (by omega)
          (by
            intro _
            rw [hnval, Option.getD_some]
            simp only [stepStack, if_pos hguard])
        have hmono := buildF_mono hs true fuel false (i + 1)
        split
        · next hbreak =>
          obtain ⟨hfirst, hblt⟩ := hbreak
          have hc2lt : (buildF hs true fuel false (i + 1)).2 + 1 < hs.length := by
            by_contra hc
            rw [List.getElem?_eq_none_iff.2 (by omega), Option.getD_none] at hblt
            omega
          have hbval : hs[(buildF hs true fuel false (i + 1)).2 + 1]?
              = some hs[(buildF hs true fuel false (i + 1)).2 + 1] :=
            List.getElem?_eq_getElem hc2lt
          rw [hbval, Option.getD_some] at hblt
          have hSne : S ≠ [] := by
            rw [hfirst] at h1
            cases S with
            | nil => simp at h1
            | cons a t => simp
          refine ⟨Fc, ?_, ?_⟩
          · simp only [annotList, annotItem, List.append_nil, List.map_cons, hfold]
            rw [List.cons_append]
            congr 1
          · intro _
            rw [hbval, Option.getD_some]
            have h5 := hc2 (by omega)
            rw [hbval, Option.getD_some] at h5
            rw [h5]
            simp only [popTo]
            rw [if_pos (And.intro hblt hSne)]
        · next hnobreak =>
          obtain ⟨Fr, hr1, hr2⟩ := ih Fc S first ((buildF hs true fuel false (i + 1)).2 + 1)
            h1 (by omega)
            (by
              intro hlt
              have h5 := hc2 (by omega)
              have hbval : hs[(buildF hs true fuel false (i + 1)).2 + 1]?
                  = some hs[(buildF hs true fuel false (i + 1)).2 + 1] :=
                List.getElem?_eq_getElem hlt
              rw [hbval, Option.getD_some] at h5 ⊢
              rw [h5]
              rw [hbval, Option.getD_some] at hnobreak
              rcases Decidable.not_and_iff_or_not.1 hnobreak with hf | hge
              · have hfirst : first = true := by
                  cases first with
                  | false => exact absurd rfl hf
                  | true => rfl
                have hSnil : S = [] := by
                  rw [hfirst] at h1
                  cases S with
                  | nil => rfl
                  | cons a t => simp at h1
                subst hSnil
                simp only [popTo]
                rw [if_neg (by simp)]
              · have hge2 : ¬ hs[(buildF hs true fuel false (i + 1)).2 + 1] < hs[i] :=
                  fun hlt2 => hge hlt2
                simp only [popTo]
                rw [if_neg (by
                  intro hand
                  exact hge2 hand.1)])
          refine ⟨Fr, ?_, hr2⟩
          simp only [annotList, annotItem, List.map_cons, List.map_append, hfold,
            List.cons_append]
          congr 1
          rw [List.append_assoc, hr1]
          have := hc1
          simp only [List.length_cons] at this
          rw [drop_min_eq] at this
          exact this
      · next hguard =>
        split
        · next hbreak =>
          obtain ⟨hfirst, hblt⟩ := hbreak
          have hnext : i + 1 < hs.length := by
            by_contra hc
            rw [List.getElem?_eq_none_iff.2 (by omega), Option.getD_none] at hblt
            omega
          have hnval : hs[i + 1]? = some hs[i + 1] := List.getElem?_eq_getElem hnext
          rw [hnval, Option.getD_some] at hblt
          have hSne : S ≠ [] := by
            rw [hfirst] at h1
            cases S with
            | nil => simp at h1
            | cons a t => simp
          refine ⟨hs[i] :: S, ?_, ?_⟩
          · simp only [annotList, annotItem, List.append_nil, List.map_cons, List.map_nil,
              hfold]
            rw [drop_min_eq]
            simp
          · intro _
            rw [hnval, Option.getD_some]
            simp only [stepStack]
            rw [if_neg (by omega)]
            simp only [popTo]
            rw [if_pos (And.intro hblt hSne)]
        · next hnobreak =>
          obtain ⟨Fr, hr1, hr2⟩ := ih (hs[i] :: S) S first (i + 1) h1 (by omega)
            (by
              intro hlt
              have hnval : hs[i + 1]? = some hs[i + 1] := List.getElem?_eq_getElem hlt
              rw [hnval, Option.getD_some] at hguard hnobreak ⊢
              simp only [stepStack]
              rw [if_neg (by omega)]
              rcases Decidable.not_and_iff_or_not.1 hnobreak with hf | hge
              · have hfirst : first = true := by
                  cases first with
                  | false => exact absurd rfl hf
                  | true => rfl
                have hSnil : S = [] := by
                  rw [hfirst] at h1
                  cases S with
                  | nil => rfl
                  | cons a t => simp at h1
                subst hSnil
                simp only [popTo]
                rw [if_neg (by simp)]
              · simp only [popTo]
                rw [if_neg (by
                  intro hand
                  exact hge hand.1)])
          refine ⟨Fr, ?_, hr2⟩
          simp only [annotList, annotItem, List.map_cons, List.map_append, List.map_nil,
            hfold, List.singleton_append, List.cons_append, List.nil_append]
          congr 1
    · have hlen : hs.length ≤ i := by omega
      refine ⟨F, ?_, ?_⟩
      · simp only [buildF, if_neg hi, annotList, List.map_nil, List.nil_append]
        rw [show min (i + 1) hs.length = hs.length by omega,
          List.drop_eq_nil_of_le (le_refl _), List.drop_eq_nil_of_le hlen]
      · simp only [buildF, if_neg hi]; omega

/-- A list of pairs is the zip of its two projections. -/
theorem zip_fst_snd {α β : Type} : ∀ l : List (α × β),
    (l.map Prod.fst).zip (l.map Prod.snd) = l := by
  intro l
  induction l with
  | nil => rfl
  | cons a t ih => simp [ih]

/-- Leaves-only lists have nesting depth exactly 1. -/
theorem depthList_all_leaf : ∀ l : List Item,
    l.all Item.isLeaf = true → l ≠ [] → depthList l = 1 := by
  intro l
  induction l with
  | nil => intro _ h; exact absurd rfl h
  | cons it rest ih =>
    intro hall _
    simp only [List.all_cons, Bool.and_eq_true] at hall
    have hit : depthItem it = 1 := by
      cases it with
      | leaf i => rfl
      | node i cs => simp [Item.isLeaf] at hall
    cases rest with
    | nil => simp [depthList, hit]
    | cons b t =>
      have h2 := ih hall.2 (by simp)
      rw [show depthList (it :: b :: t) = max (depthItem it) (depthList (b :: t)) from rfl,
        hit, h2, max_self]

/-- C1: for every non-empty, document-ordered heading sequence, the
builder's output references every heading of the sequence exactly once and
in order — no duplication, no omission — in nested and in flat mode
alike. -/
theorem toc_every_heading_once (nested : Bool) (hs : List Nat) (_h : hs ≠ []) :
    tocIndexes (createList nested hs) = List.range hs.length := by
  unfold tocIndexes createList createListRun
  have hc := buildF_cover hs nested hs.length true 0 1 (by omega)
  have he := buildF_first_exit hs nested hs.length 0 (by omega)
  rw [hc, show min ((buildF hs nested hs.length true 0).2 + 1) hs.length = hs.length by omega,
    List.range_eq_range']
  simp

/-- Witness for C1 at the rank sequence 2, 3, 2. -/
theorem toc_every_heading_once_witness :
    ([2, 3, 2] : List Nat) ≠ []
      ∧ tocIndexes (createList true [2, 3, 2]) = List.range 3 :=
  ⟨by decide, toc_every_heading_once true [2, 3, 2] (by decide)⟩

/-- C2: in nested mode the produced tree is the valid tree decomposition of
the flat sequence: flattened in document order it lists every heading
exactly once, at exactly one nesting depth, and that depth is the one the
specification's open-level stack rule assigns from the rank sequence. -/
theorem toc_nested_tree_decomposition (hs : List Nat) (_h : hs ≠ []) :
    annotList 1 (createList true hs) = (List.range hs.length).zip (specDepths hs) := by
  have hfst : (annotList 1 (createList true hs)).map Prod.fst = List.range hs.length := by
    unfold createList createListRun
    have hc := buildF_cover hs true hs.length true 0 1 (by omega)
    have he := buildF_first_exit hs true hs.length 0 (by omega)
    rw [hc, show min ((buildF hs true hs.length true 0).2 + 1) hs.length = hs.length by omega,
      List.range_eq_range']
    simp
  have hsnd : (annotList 1 (createList true hs)).map Prod.snd = specDepths hs := by
    unfold createList createListRun specDepths
    obtain ⟨F', he1, _⟩ := buildF_sim hs hs.length [] [] true 0 rfl (by omega)
      (by intro _; simp [stepStack])
    have he := buildF_first_exit hs true hs.length 0 (by omega)
    rw [show min ((buildF hs true hs.length true 0).2 + 1) hs.length = hs.length by omega,
      List.drop_length] at he1
    simp only [specDepthsGo, List.append_nil, List.length_nil, List.drop_zero] at he1
    exact he1
  rw [← zip_fst_snd (annotList 1 (createList true hs)), hfst, hsnd]

/-- Witness for C2 at the rank sequence 2, 4, 3 (the heading of rank 3
comes out at depth 1, as the stack rule dictates). -/
theorem toc_nested_tree_decomposition_witness :
    ([2, 4, 3] : List Nat) ≠ []
      ∧ annotList 1 (createList true [2, 4, 3]) = (List.range 3).zip (specDepths [2, 4, 3]) :=
  ⟨by decide, toc_nested_tree_decomposition [2, 4, 3] (by decide)⟩

/-- C3: with nesting disabled the builder emits one flat list: no item
embeds a nested list (the recursive call is never made), and for a
non-empty sequence the output's nesting depth is exactly 1, whatever the
ranks. -/
theorem toc_flat_mode_depth_one (hs : List Nat) :
    (createList false hs).all Item.isLeaf = true
      ∧ (hs ≠ [] → depthList (createList false hs) = 1) := by
  constructor
  · exact buildF_flat_leaf hs hs.length true 0
  · intro h
    refine depthList_all_leaf _ (buildF_flat_leaf hs hs.length true 0) ?_
    have hlen : 0 < hs.length := List.length_pos.2 h
    exact buildF_ne_nil hs false hs.length true 0 hlen (by omega)

/-- Witness for C3 at the rank sequence 2, 5, 3. -/
theorem toc_flat_mode_depth_one_witness :
    (createList false [2, 5, 3]).all Item.isLeaf = true
      ∧ depthList (createList false [2, 5, 3]) = 1 :=
  ⟨(toc_flat_mode_depth_one [2, 5, 3]).1,
    (toc_flat_mode_depth_one [2, 5, 3]).2 (by decide)⟩

/-- C4: on the rank sequence 2, 3, 4, 3, 2 the nested builder produces one
top-level item whose subtree reaches depth 3 (the rank 2 containing the
rank 3 containing the rank 4), with the trailing rank-3 heading a depth-2
sibling under that same first top item, and the final rank-2 heading a new
top-level item. -/
theorem toc_nested_example_23432 :
    createList true [2, 3, 4, 3, 2]
      = [Item.node 0 [Item.node 1 [Item.leaf 2], Item.leaf 3], Item.leaf 4] := by
  rfl

/-- C5: a heading with no following sibling closes every open nesting
level: the item built for the last heading never embeds a nested list, and
every recursive frame has returned by the end of the build — the final
shared cursor has consumed the whole sequence. -/
theorem toc_last_heading_closes_all (nested : Bool) (hs : List Nat) (h : hs ≠ []) :
    (∀ it ∈ allItemsL (createList nested hs),
        it.idx = hs.length - 1 → it.isLeaf = true)
      ∧ hs.length ≤ (createListRun nested hs).2 := by
  constructor
  · intro it hmem hidx
    rcases buildF_node_idx hs nested hs.length true 0 it hmem with hleaf | hbound
    · exact hleaf
    · have hlen : 0 < hs.length := List.length_pos.2 h
      omega
  · exact buildF_first_exit hs nested hs.length 0 (by omega)

/-- Witness for C5 at the rank sequence 2, 3. -/
theorem toc_last_heading_closes_all_witness :
    ([2, 3] : List Nat) ≠ []
      ∧ ((∀ it ∈ allItemsL (createList true [2, 3]),
            it.idx = 1 → it.isLeaf = true)
          ∧ 2 ≤ (createListRun true [2, 3]).2) :=
  ⟨by decide, toc_last_heading_closes_all true [2, 3] (by decide)⟩

/-- C10: the shared-cursor recursion terminates on every finite heading
sequence: the cursor never decreases, and once the fuel covers the
remaining length the run is independent of it — the build is a total
function of the sequence, the configuration and the start cursor. -/
theorem toc_builder_terminates (nested first : Bool) (hs : List Nat) (fuel i : Nat) :
    i ≤ (buildF hs nested fuel first i).2
      ∧ (hs.length - i ≤ fuel →
          buildF hs nested fuel first i = buildF hs nested (hs.length - i) first i) :=
  ⟨buildF_mono hs nested fuel first i,
    fun hf => buildF_fuel_eq hs nested fuel (hs.length - i) first i hf (le_refl _)⟩

/-- Witness for C10 at the rank sequence 2, 3, 4 with surplus fuel. -/
theorem toc_builder_terminates_witness :
    0 ≤ (buildF [2, 3, 4] true 9 true 0).2
      ∧ buildF [2, 3, 4] true 9 true 0 = buildF [2, 3, 4] true 3 true 0 :=
  ⟨(toc_builder_terminates true true [2, 3, 4] 9 0).1,
    (toc_builder_terminates true true [2, 3, 4] 9 0).2 (by decide)⟩

/-- JavaScript truthiness of an optional string attribute (`null` and the
empty string are falsy), as used for `this.#heading` on line 369. -/
def jsTruthy : Option String → Bool
  | none => false
  | some s => s != ""

/-- One entry of the rendered list element: the caption list item
(`<li><strong>…</strong></li>`, line 374) or a generated TOC item. -/
inductive LiEntry where
  | caption (text : String)
  | entry (it : Item)
deriving Repr

/-- The markup returned by `#createList` (lines 371-376): an optional
standalone caption element placed before the list, then the list element
with its tag and optional class, holding an optional leading caption item
followed by the generated items. -/
structure TocMarkup where
  preHeading : Option (String × String)
  listTag : String
  listClass : Option String
  listItems : List LiEntry
deriving Repr

/-- The return statement of `#createList` (lines 368-376): only when this
is the top-level invocation and a caption is configured is the caption
rendered — inside the list as its first item when its container tag is
`li`, as a standalone element before the list otherwise. -/
def assembleList (isFirst : Bool) (heading : Option String) (headingType : String)
    (listType : String) (listClass : Option String) (items : List Item) : TocMarkup :=
  let renderHeading := isFirst && jsTruthy heading
  { preHeading :=
      if renderHeading && (headingType != "li") then some (headingType, heading.getD "")
      else none
    listTag := listType
    listClass := listClass
    listItems :=
      (if renderHeading && (headingType == "li") then [LiEntry.caption (heading.getD "")]
       else []) ++ items.map LiEntry.entry }

/-- An event observable from outside a component: the `kelp:debug`
notification of `debug` (lines 13-24) or the `kelp-component:ready`
notification of `emit` (lines 34-46). -/
inductive Ev where
  | debug (msg : String)
  | ready (component : String)
deriving DecidableEq, Repr

/-- The `init`/`render` pair of `kelp-toc` (lines 289-328) as a state
transformer: given the configuration, the matching heading ranks, the
`is-ready` flag and the current content, it returns the new flag, the new
content and the emitted events.  `init` returns at once when the flag is
set; `render` aborts — leaving the content untouched — and `init` emits
one debug notification when no heading matches; otherwise the content is
replaced by the built list, a `ready` notification is emitted and the flag
is set. -/
def tocInit (nested : Bool) (heading : Option String) (headingType listType : String)
    (listClass : Option String) (hs : List Nat) (isReady : Bool)
    (content : Option TocMarkup) : Bool × Option TocMarkup × List Ev :=
  if isReady then (isReady, content, [])
  else if hs.isEmpty then (isReady, content, [Ev.debug "No matching headings were found"])
  else (true,
    some (assembleList true heading headingType listType listClass (createList nested hs)),
    [Ev.ready "toc"])

/-- State of a `kelp-subnav` component: its two lifecycle flags, whether
the document-level click/keydown listeners are attached, and whether the
component holds a `details` element. -/
structure SubnavState where
  isReady : Bool
  isPaused : Bool
  listening : Bool
  hasDetails : Bool
deriving DecidableEq, Repr

/-- The `init` of `kelp-subnav` (lines 122-141) with the `reinit` guard
(lines 67-79): when `is-ready` is set, at most the listeners are
reattached (only when `is-paused` is set, which is then cleared) and init
returns; otherwise it aborts with a debug notification when no `details`
exists, else attaches the listeners, emits `ready` and sets the flag. -/
def subnavInit (st : SubnavState) : SubnavState × List Ev :=
  if st.isReady then
    if st.isPaused then ({ st with listening := true, isPaused := false }, [])
    else (st, [])
  else if !st.hasDetails then (st, [Ev.debug "No subnav was found"])
  else ({ st with listening := true, isReady := true }, [Ev.ready "subnav"])

/-- C6: with an empty matching heading sequence, the TOC `init` leaves the
prior content untouched, emits exactly one debug notification with the
no-matching-headings reason and no `ready` notification, and does not set
the `is-ready` flag. -/
theorem toc_init_empty_aborts (nested : Bool) (heading : Option String)
    (headingType listType : String) (listClass : Option String)
    (content : Option TocMarkup) :
    tocInit nested heading headingType listType listClass [] false content
      = (false, content, [Ev.debug "No matching headings were found"]) := by
  rfl

/-- C7: a configured caption with container tag `li` is rendered as the
first entry of the same list element holding the generated items; with any
other container tag it is rendered as a standalone element placed before
the list, never inside it; and a recursive (non-top-level) invocation
renders no caption at all. -/
theorem toc_caption_placement (heading : Option String) (headingType listType : String)
    (listClass : Option String) (items : List Item)
    (hcap : jsTruthy heading = true) :
    (headingType = "li" →
        (assembleList true heading headingType listType listClass items).listItems
            = LiEntry.caption (heading.getD "") :: items.map LiEntry.entry
          ∧ (assembleList true heading headingType listType listClass items).preHeading
            = none)
      ∧ (headingType ≠ "li" →
          (assembleList true heading headingType listType listClass items).preHeading
              = some (headingType, heading.getD "")
            ∧ (assembleList true heading headingType listType listClass items).listItems
              = items.map LiEntry.entry)
      ∧ (assembleList false heading headingType listType listClass items).preHeading = none
      ∧ (assembleList false heading headingType listType listClass items).listItems
        = items.map LiEntry.entry := by
  refine ⟨?_, ?_, ?_, ?_⟩
  · intro hli
    subst hli
    simp [assembleList, hcap]
  · intro hne
    have hne' : (headingType == "li") = false := by
      simp [hne]
    simp only [assembleList, hcap, hne', Bool.true_and, Bool.and_false, Bool.and_true,
      if_false, Bool.false_eq_true]
    refine ⟨if_pos ?_, rfl⟩
    simp [hne]
  · simp [assembleList]
  · simp [assembleList]

/-- Witness for C7: caption in a list-item container at the top level. -/
theorem toc_caption_placement_witness :
    jsTruthy (some "On this page") = true
      ∧ ((assembleList true (some "On this page") "li" "ul" none [Item.leaf 0]).listItems
            = LiEntry.caption "On this page" :: [Item.leaf 0].map LiEntry.entry
          ∧ (assembleList true (some "On this page") "li" "ul" none [Item.leaf 0]).preHeading
            = none) :=
  ⟨by decide,
    (toc_caption_placement (some "On this page") "li" "ul" none [Item.leaf 0] (by decide)).1
      rfl⟩

/-- C9: a set `is-ready` flag makes a later `init` a no-op: the TOC `init`
changes nothing and emits nothing, and the subnav `init` emits nothing and
mutates nothing except that, when `is-paused` is set, the
teardown-sensitive document listeners are reattached and the paused flag
is cleared. -/
theorem ready_flag_blocks_reinit (st : SubnavState) (nested : Bool)
    (heading : Option String) (headingType listType : String)
    (listClass : Option String) (hs : List Nat) (content : Option TocMarkup)
    (h : st.isReady = true) :
    subnavInit st
        = ({ st with isPaused := false, listening := st.listening || st.isPaused }, [])
      ∧ tocInit nested heading headingType listType listClass hs true content
        = (true, content, []) := by
  constructor
  · obtain ⟨r, p, l, d⟩ := st
    simp only at h
    subst h
    cases p <;> simp [subnavInit]
  · rfl

/-- Witness for C9 at a paused, ready subnav instance and a concrete TOC
configuration. -/
theorem ready_flag_blocks_reinit_witness :
    (SubnavState.mk true true false true).isReady = true
      ∧ (subnavInit (SubnavState.mk true true false true)
            = (SubnavState.mk true false true true, [])
          ∧ tocInit true none "h2" "ul" none [2, 3] true none = (true, none, [])) :=
  ⟨rfl, by
    have h := ready_flag_blocks_reinit (SubnavState.mk true true false true) true none
      "h2" "ul" none [2, 3] none rfl
    exact h⟩

/-- The whitespace class of JavaScript regular expressions (`\s`). -/
def jsSpace (c : Char) : Bool :=
  let n := c.toNat
  (n == 9) || (n == 10) || (n == 11) || (n == 12) || (n == 13) || (n == 32)
    || (n == 0xA0) || (n == 0x1680) || (decide (0x2000 ≤ n) && decide (n ≤ 0x200A))
    || (n == 0x2028) || (n == 0x2029) || (n == 0x202F) || (n == 0x205F)
    || (n == 0x3000) || (n == 0xFEFF)

/-- The character class kept by the first replacement of `setTextAsID`
(line 91): the negation of `[^a-zA-Z0-9-_ -￯\s-]`. -/
def jsAllowed (c : Char) : Bool :=
  let n := c.toNat
  (decide (97 ≤ n) && decide (n ≤ 122)) || (decide (65 ≤ n) && decide (n ≤ 90))
    || (decide (48 ≤ n) && decide (n ≤ 57)) || (n == 45) || (n == 95)
    || (decide (0xA0 ≤ n) && decide (n ≤ 0xFFEF)) || jsSpace c

/-- Membership in the class `[\s-]` of the second replacement. -/
def isSpaceDash (c : Char) : Bool := jsSpace c || (c == '-')

/-- The first replacement: a disallowed character becomes a separator. -/
def step1 (c : Char) : Char := if jsAllowed c then c else '-'

/-- The second replacement: a maximal run of whitespace/separator
characters collapses to one separator. -/
def squash : List Char → List Char
  | [] => []
  | [c] => [if isSpaceDash c then '-' else c]
  | a :: b :: rest =>
    if isSpaceDash a && isSpaceDash b then squash (b :: rest)
    else (if isSpaceDash a then '-' else a) :: squash (b :: rest)

/-- The identifier string derived from the element's text (line 91). -/
def slug (text : String) : String := (squash (text.data.map step1)).asString

/-- A heading element as `setTextAsID` sees it: its current identifier
(empty when absent, as `elem.id` then is falsy) and its text content. -/
structure Elem where
  id : String
  text : String
deriving DecidableEq, Repr

/-- The identifier probed at counter value `s` (no suffix for 0), built as
on lines 96-99 and 103. -/
def kelpCandidate (id : String) (s : Nat) : String :=
  if s = 0 then "kelp_" ++ id else "kelp_" ++ id ++ "_" ++ Nat.repr s

/-- The `while (existing)` probe of lines 95-100 over the set `doc` of
identifiers present in the document, fuelled: as long as the candidate at
the current counter is taken, bump the counter. -/
def probeLoop (doc : List String) (id : String) : Nat → Nat → Nat
  | 0, s => s
  | fuel + 1, s => if kelpCandidate id s ∈ doc then probeLoop doc id fuel (s + 1) else s

/-- `setTextAsID` (lines 85-105): a no-op when the element already has an
identifier or its text yields an empty one; otherwise the element gets the
first free probed identifier.  The fuel `doc.length + 1` is shown
sufficient for the probe to reach a free candidate. -/
def setTextAsID (doc : List String) (e : Elem) : Elem :=
  if e.id ≠ "" then e
  else
    let id := slug e.text
    if id = "" then e
    else { e with id := kelpCandidate id (probeLoop doc id (doc.length + 1) 0) }

/-- The digit accumulator of `Nat.toDigitsCore` only prepends. -/
theorem toDigitsCore_append (b : Nat) : ∀ fuel n ds,
    Nat.toDigitsCore b fuel n ds = Nat.toDigitsCore b fuel n [] ++ ds := by
  intro fuel
  induction fuel with
  | zero => intro n ds; simp [Nat.toDigitsCore]
  | succ fuel ih =>
    intro n ds
    simp only [Nat.toDigitsCore]
    by_cases h0 : n / b = 0
    · rw [if_pos h0, if_pos h0]
      simp
    · rw [if_neg h0, if_neg h0]
      rw [ih (n / b) (Nat.digitChar (n % b) :: ds), ih (n / b) [Nat.digitChar (n % b)]]
      simp

/-- Decimal value of a digit string. -/
def decimalVal (l : List Char) : Nat := l.foldl (fun a c => 10 * a + (c.toNat - 48)) 0

/-- Value of one rendered decimal digit. -/
theorem digitChar_val (d : Nat) (h : d < 10) : (Nat.digitChar d).toNat - 48 = d := by
  interval_cases d <;> decide

/-- Decimal rendering round-trips through `decimalVal`. -/
theorem core_decimalVal : ∀ fuel n, n < fuel →
    decimalVal (Nat.toDigitsCore 10 fuel n []) = n := by
  intro fuel
  induction fuel with
  | zero => intro n h; exact absurd h (Nat.not_lt_zero n)
  | succ fuel ih =>
    intro n h
    simp only [Nat.toDigitsCore]
    by_cases h0 : n / 10 = 0
    · rw [if_pos h0]
      simp only [decimalVal, List.foldl]
      rw [digitChar_val (n % 10) (by omega)]
      omega
    · rw [if_neg h0]
      rw [toDigitsCore_append 10 fuel (n / 10) [Nat.digitChar (n % 10)]]
      have ihv := ih (n / 10) (by omega)
      simp only [decimalVal] at ihv ⊢
      rw [List.foldl_append]
      simp only [List.foldl]
      rw [ihv, digitChar_val (n % 10) (by omega)]
      omega

/-- `Nat.repr` round-trips through `decimalVal`. -/
theorem repr_decimalVal (n : Nat) : decimalVal (Nat.repr n).data = n := by
  show decimalVal (Nat.toDigitsCore 10 (n + 1) n []) = n
  exact core_decimalVal (n + 1) n (Nat.lt_succ_self n)

/-- Distinct counters probe distinct identifiers. -/
theorem kelpCandidate_inj (id : String) : Function.Injective (kelpCandidate id) := by
  intro a b h
  unfold kelpCandidate at h
  by_cases ha : a = 0 <;> by_cases hb : b = 0
  · omega
  · rw [if_pos ha, if_neg hb] at h
    have hl := congrArg String.length h
    have hone : ("_" : String).length = 1 := rfl
    simp only [String.length_append, hone] at hl
    omega
  · rw [if_neg ha, if_pos hb] at h
    have hl := congrArg String.length h
    have hone : ("_" : String).length = 1 := rfl
    simp only [String.length_append, hone] at hl
    omega
  · rw [if_neg ha, if_neg hb] at h
    have hd := congrArg String.data h
    simp only [String.data_append] at hd
    have h2 : (Nat.repr a).data = (Nat.repr b).data := List.append_cancel_left hd
    have h3 := congrArg decimalVal h2
    rwa [repr_decimalVal, repr_decimalVal] at h3

/-- When some candidate within the fuel is free, the probe stops at a free
candidate. -/
theorem probeLoop_free (doc : List String) (id : String) : ∀ fuel s,
    (∃ k, k < fuel ∧ kelpCandidate id (s + k) ∉ doc) →
    kelpCandidate id (probeLoop doc id fuel s) ∉ doc := by
  intro fuel
  induction fuel with
  | zero => intro s h; obtain ⟨k, hk, _⟩ := h; omega
  | succ fuel ih =>
    intro s h
    simp only [probeLoop]
    by_cases hmem : kelpCandidate id s ∈ doc
    · rw [if_pos hmem]
      obtain ⟨k, hk, hfree⟩ := h
      refine ih (s + 1) ⟨k - 1, by
        constructor
        · have : k ≠ 0 := by rintro rfl; simp at hfree; exact hfree hmem
          omega
        · rw [show s + 1 + (k - 1) = s + k by
            have : k ≠ 0 := by rintro rfl; simp at hfree; exact hfree hmem
            omega]
          exact hfree⟩
    · rwa [if_neg hmem]

/-- Pigeonhole: among the first `doc.length + 1` candidates one is free. -/
theorem exists_free_candidate (doc : List String) (id : String) :
    ∃ k, k < doc.length + 1 ∧ kelpCandidate id k ∉ doc := by
  by_contra hc
  push_neg at hc
  have hsub : ((List.range (doc.length + 1)).map (kelpCandidate id)).toFinset
      ⊆ doc.toFinset := by
    intro x hx
    rw [List.mem_toFinset] at hx ⊢
    obtain ⟨k, hk, rfl⟩ := List.mem_map.1 hx
    exact hc k (List.mem_range.1 hk)
  have hnd : ((List.range (doc.length + 1)).map (kelpCandidate id)).Nodup :=
    (List.nodup_range _).map (kelpCandidate_inj id)
  have hcard := Finset.card_le_card hsub
  rw [List.toFinset_card_of_nodup hnd, List.length_map, List.length_range] at hcard
  have := doc.toFinset_card_le
  omega

/-- A probed identifier is never the empty string. -/
theorem kelpCandidate_ne_empty (id : String) (s : Nat) : kelpCandidate id s ≠ "" := by
  intro h
  have hl := congrArg String.length h
  unfold kelpCandidate at hl
  by_cases hs : s = 0
  · rw [if_pos hs] at hl
    simp [String.length_append] at hl
    exact absurd hl.1 (by decide)
  · rw [if_neg hs] at hl
    simp [String.length_append] at hl
    exact absurd hl.1.1.1 (by decide)

/-- C8: identifier assignment is idempotent, collision-free and silently
skipped on empty derivations: an element that has an identifier is left
unchanged (so a second builder run changes nothing); an element without
one receives an identifier that is non-empty and distinct from every
identifier already present in the document; and when the text derives an
empty identifier string the element is left unchanged. -/
theorem id_assignment_sound (doc : List String) (e : Elem) :
    (e.id ≠ "" → setTextAsID doc e = e)
      ∧ (e.id = "" → slug e.text ≠ "" →
          (setTextAsID doc e).id ∉ doc ∧ (setTextAsID doc e).id ≠ "")
      ∧ (e.id = "" → slug e.text = "" → setTextAsID doc e = e) := by
  refine ⟨?_, ?_, ?_⟩
  · intro h
    rw [setTextAsID, if_pos h]
  · intro h hs
    rw [setTextAsID, if_neg (by simp [h]), if_neg hs]
    constructor
    · exact probeLoop_free doc (slug e.text) (doc.length + 1) 0
        (by
          obtain ⟨k, hk, hfree⟩ := exists_free_candidate doc (slug e.text)
          exact ⟨k, hk, by simpa using hfree⟩)
    · exact kelpCandidate_ne_empty _ _
  · intro h hs
    rw [setTextAsID, if_neg (by simp [h]), if_pos hs]

/-- Witness for C8: a fresh heading whose slug collides with an existing
identifier gets the next free suffix, and an element with an identifier is
untouched. -/
theorem id_assignment_sound_witness :
    ((Elem.mk "" "Intro").id = "" ∧ slug "Intro" ≠ ""
        ∧ ((setTextAsID ["kelp_Intro"] (Elem.mk "" "Intro")).id ∉ (["kelp_Intro"] : List String)
          ∧ (setTextAsID ["kelp_Intro"] (Elem.mk "" "Intro")).id ≠ ""))
      ∧ ((Elem.mk "kelp_Intro" "Intro").id ≠ ""
        ∧ setTextAsID [] (Elem.mk "kelp_Intro" "Intro") = Elem.mk "kelp_Intro" "Intro") :=
  ⟨⟨rfl, by decide,
      (id_assignment_sound ["kelp_Intro"] (Elem.mk "" "Intro")).2.1 rfl (by decide)⟩,
    ⟨by decide, (id_assignment_sound [] (Elem.mk "kelp_Intro" "Intro")).1 (by decide)⟩⟩
